import Mathlib

/-!
Verification of the `checkin` Go package (file `checkin.go`).

The Go type `CheckinRecord` is an `int64` used purely as a 64-bit bit
pattern: bit 0 is today, bit `k` is `k` days ago.  We embed the record as
the natural number giving its two's-complement bit pattern (an invariant
`c < 2^64` accompanies theorems that need the width).  Day and window
arguments have Go type `int`; we embed them as `Int`, since only their
order against `0` and `64` and (when in range) their value matter.

Go's `float64` division in `CheckinRate` is embedded as exact rational
division; the claims we check about it are order facts against `0` and
`1`, which agree between the two.
-/

/-- A check-in record: the two's-complement bit pattern of the Go `int64`. -/
abbrev CheckinRecord := Nat

/-- `NewCheckinRecord` creates the empty record. -/
def NewCheckinRecord : CheckinRecord := 0

/-- `FromInt64` wraps an `int64` value: we take its bit pattern. -/
def FromInt64 (value : Int) : CheckinRecord := (value % (2 ^ 64 : Int)).toNat

/-- `ToInt64` reads the record back as a signed 64-bit integer. -/
def ToInt64 (c : CheckinRecord) : Int :=
  if c < 2 ^ 63 then (c : Int) else (c : Int) - 2 ^ 64

/-- `Checkin`: `return c | 1`. -/
def Checkin (c : CheckinRecord) : CheckinRecord := c ||| 1

/-- `CheckinDay`: out-of-range day is a no-op, else `c | (1 << day)`. -/
def CheckinDay (c : CheckinRecord) (day : Int) : CheckinRecord :=
  if day < 0 ∨ day ≥ 64 then c else c ||| (1 <<< day.toNat)

/-- `IsCheckedToday`: `(c & 1) == 1`. -/
def IsCheckedToday (c : CheckinRecord) : Bool := c &&& 1 == 1

/-- `IsCheckedDay`: out-of-range day gives `false`, else `(c & (1 << day)) != 0`. -/
def IsCheckedDay (c : CheckinRecord) (day : Int) : Bool :=
  if day < 0 ∨ day ≥ 64 then false else c &&& (1 <<< day.toNat) != 0

/-- The loop of `ContinuousDays`: starting at bit index `i` with `fuel`
iterations left (the Go loop runs `i = 0 .. 63`), count set bits until the
first clear bit. -/
def contFrom (c : CheckinRecord) (i : Nat) : Nat → Nat
  | 0 => 0
  | fuel + 1 => if c &&& (1 <<< i) != 0 then contFrom c (i + 1) fuel + 1 else 0

/-- `ContinuousDays`: consecutive set bits from bit 0, stopping at the first
clear bit or after 64 iterations. -/
def ContinuousDays (c : CheckinRecord) : Nat := contFrom c 0 64

/-- The clamp shared by `TotalDaysInPeriod`, `StringWithDays` and
`GetDaysBitmap`: `if days <= 0 || days > 64 { days = 64 }`. -/
def clampDays (days : Int) : Nat :=
  if days ≤ 0 ∨ days > 64 then 64 else days.toNat

/-- `TotalDaysInPeriod`: clamp the window, then count set bits among
indices `[0, days)` with a running counter, as the Go loop does. -/
def TotalDaysInPeriod (c : CheckinRecord) (days : Int) : Nat :=
  (List.range (clampDays days)).foldl
    (fun count i => if c &&& (1 <<< i) != 0 then count + 1 else count) 0

/-- `ShiftDay`: `return c << 1` on `int64`, i.e. the bit pattern doubles
modulo `2^64`. -/
def ShiftDay (c : CheckinRecord) : CheckinRecord := (c <<< 1) % 2 ^ 64

/-- `Clear`: `return 0`. -/
def Clear (_ : CheckinRecord) : CheckinRecord := 0

/-- `StringWithDays`: clamp the window, emit one glyph per index `0 .. days-1`
(marked `'✓'`, unmarked `'✗'`), then reverse the rune sequence. -/
def StringWithDays (c : CheckinRecord) (days : Int) : String :=
  String.mk
    (((List.range (clampDays days)).map
      (fun i => if c &&& (1 <<< i) != 0 then '✓' else '✗')).reverse)

/-- `String` (the Go `String()` method): `StringWithDays 7`. -/
def StringDefault (c : CheckinRecord) : String := StringWithDays c 7

/-- The `%b` verb of Go's `fmt` applied to a nonnegative magnitude below
`2^64`: the bit pattern most-significant bit first, leading zero bits not
shown, and the single digit `0` for zero. -/
def fmtBinNat (n : Nat) : String :=
  let full := (List.range 64).reverse.map (fun i => if n.testBit i then '1' else '0')
  let trimmed := full.dropWhile (fun ch => ch = '0')
  if trimmed.isEmpty then "0" else String.mk trimmed

/-- `Binary`: `fmt.Sprintf("0b%b", c)` on the signed `int64` value.  For a
negative value Go's `%b` prints a minus sign followed by the binary digits
of the magnitude. -/
def Binary (c : CheckinRecord) : String :=
  if ToInt64 c ≥ 0 then "0b" ++ fmtBinNat (ToInt64 c).toNat
  else "0b-" ++ fmtBinNat (-(ToInt64 c)).toNat

/-- One iteration of the `MaxContinuousDays` loop: the state is
`(maxCount, currentCount)`. -/
def maxContStep (c : CheckinRecord) (p : Nat × Nat) (i : Nat) : Nat × Nat :=
  if c &&& (1 <<< i) != 0 then
    (if p.2 + 1 > p.1 then p.2 + 1 else p.1, p.2 + 1)
  else (p.1, 0)

/-- `MaxContinuousDays`: early return 0 on the zero record, else scan all
64 bit indices keeping the current and maximal run of set bits. -/
def MaxContinuousDays (c : CheckinRecord) : Nat :=
  if c = 0 then 0
  else ((List.range 64).foldl (maxContStep c) (0, 0)).1

/-- `CheckinRate`: `0.0` for `days ≤ 0`, else `TotalDaysInPeriod days / days`
(Go divides two `float64`s; we divide exactly in `ℚ`). -/
def CheckinRate (c : CheckinRecord) (days : Int) : ℚ :=
  if days ≤ 0 then 0 else (TotalDaysInPeriod c days : ℚ) / (days : ℚ)

/-- The mask test the Go code writes as `(c & (1 << i)) != 0` is the test
of bit `i`. -/
lemma maskTest_eq_testBit (c i : Nat) : (c &&& (1 <<< i) != 0) = c.testBit i := by
  rw [Nat.shiftLeft_eq, one_mul, Nat.and_two_pow]
  cases h : c.testBit i <;> simp

/-- `IsCheckedDay` on an in-range day reads that bit of the pattern. -/
lemma isCheckedDay_eq_testBit (c : CheckinRecord) (day : Int)
    (h0 : 0 ≤ day) (h64 : day < 64) :
    IsCheckedDay c day = c.testBit day.toNat := by
  have : ¬ (day < 0 ∨ day ≥ 64) := by omega
  rw [IsCheckedDay, if_neg this, maskTest_eq_testBit]

/-- C9: `markToday()` (Go `Checkin`) is idempotent and afterwards
`isMarkedToday()` (Go `IsCheckedToday`) holds, for every record. -/
theorem Checkin_idempotent_and_marks_today (c : CheckinRecord) :
    Checkin (Checkin c) = Checkin c ∧ IsCheckedToday (Checkin c) = true := by
  refine ⟨?_, ?_⟩
  · simp [Checkin, Nat.or_assoc]
  · simp [Checkin, IsCheckedToday, Nat.and_one_is_mod]

/-- C7: for a day outside `[0,64)`, `markDay` (Go `CheckinDay`) returns the
record unchanged and `isMarkedDay` (Go `IsCheckedDay`) returns `false`;
neither signals an error (both are total functions). -/
theorem CheckinDay_IsCheckedDay_out_of_range (c : CheckinRecord) (day : Int)
    (h : day < 0 ∨ day ≥ 64) :
    CheckinDay c day = c ∧ IsCheckedDay c day = false := by
  constructor <;> simp [CheckinDay, IsCheckedDay, if_pos h]

/-- Witness for C7 at record 5, day 64. -/
theorem CheckinDay_IsCheckedDay_out_of_range_witness :
    CheckinDay 5 64 = 5 ∧ IsCheckedDay 5 64 = false :=
  CheckinDay_IsCheckedDay_out_of_range 5 64 (by decide)

/-- C10: for an in-range day `d`, `markDay(d)` (Go `CheckinDay`) sets bit `d`
and leaves every other in-range day's `isMarkedDay` answer unchanged. -/
theorem CheckinDay_frame (c : CheckinRecord) (day : Int)
    (h0 : 0 ≤ day) (h64 : day < 64) :
    IsCheckedDay (CheckinDay c day) day = true ∧
    ∀ d : Int, 0 ≤ d → d < 64 → d ≠ day →
      IsCheckedDay (CheckinDay c day) d = IsCheckedDay c d := by
  have hnot : ¬ (day < 0 ∨ day ≥ 64) := by omega
  rw [CheckinDay, if_neg hnot]
  constructor
  · rw [isCheckedDay_eq_testBit _ _ h0 h64, Nat.shiftLeft_eq, one_mul,
      Nat.testBit_or, Nat.testBit_two_pow]
    simp
  · intro d hd0 hd64 hne
    rw [isCheckedDay_eq_testBit _ _ hd0 hd64, isCheckedDay_eq_testBit _ _ hd0 hd64,
      Nat.shiftLeft_eq, one_mul, Nat.testBit_or, Nat.testBit_two_pow]
    have : day.toNat ≠ d.toNat := by omega
    simp [this]

/-- Witness for C10 at record 0, day 3, other day 2. -/
theorem CheckinDay_frame_witness :
    IsCheckedDay (CheckinDay 0 3) 3 = true ∧
    IsCheckedDay (CheckinDay 0 3) 2 = IsCheckedDay 0 2 :=
  ⟨(CheckinDay_frame 0 3 (by decide) (by decide)).1,
   (CheckinDay_frame 0 3 (by decide) (by decide)).2 2 (by decide) (by decide) (by decide)⟩

/-- C3: `advance()` (Go `ShiftDay`) is the logical left shift by one bit:
bit 0 of the result is clear, bit `k` of the result (for `1 ≤ k < 64`) is
bit `k-1` of the input, the result stays a 64-bit pattern (bit 63 is
discarded, no wrap, no sign-extension), and on the record `0b1` it yields
`0b10`, for which `isMarkedDay(1)` holds and `isMarkedToday()` does not. -/
theorem ShiftDay_spec (c : CheckinRecord) :
    (ShiftDay c).testBit 0 = false ∧
    (∀ k : Nat, 1 ≤ k → k < 64 → (ShiftDay c).testBit k = c.testBit (k - 1)) ∧
    ShiftDay c < 2 ^ 64 ∧
    ShiftDay 1 = 2 ∧ IsCheckedDay (ShiftDay 1) 1 = true ∧
    IsCheckedToday (ShiftDay 1) = false := by
  refine ⟨?_, ?_, ?_, by decide, by decide, by decide⟩
  · rw [ShiftDay, Nat.testBit_mod_two_pow, Nat.testBit_shiftLeft]
    simp
  · intro k h1 h64
    rw [ShiftDay, Nat.testBit_mod_two_pow, Nat.testBit_shiftLeft]
    simp [h64, h1]
  · exact Nat.mod_lt _ (by positivity)

/-- Witness for C3 at record 1, bit 1. -/
theorem ShiftDay_spec_witness :
    (ShiftDay 1).testBit 1 = Nat.testBit 1 0 :=
  (ShiftDay_spec 1).2.1 1 (by decide) (by decide)

/-- A counting loop `count := 0; for i in l { if P i { count++ } }` computes
`countP`. -/
lemma foldl_count (P : Nat → Bool) (l : List Nat) (n : Nat) :
    l.foldl (fun count i => if P i then count + 1 else count) n = n + l.countP P := by
  induction l generalizing n with
  | nil => simp
  | cons a t ih =>
    rw [List.foldl_cons, List.countP_cons]
    cases h : P a <;> simp [h, ih]
    omega

/-- `TotalDaysInPeriod` counts the set bits among the first `clampDays days`
indices. -/
lemma totalDays_eq_filter (c : CheckinRecord) (days : Int) :
    TotalDaysInPeriod c days =
      ((List.range (clampDays days)).filter (fun i => c.testBit i)).length := by
  rw [TotalDaysInPeriod, foldl_count, Nat.zero_add, List.countP_eq_length_filter]
  simp [maskTest_eq_testBit]

/-- The count of set bits in a window never exceeds the window length. -/
lemma totalDays_le_clamp (c : CheckinRecord) (days : Int) :
    TotalDaysInPeriod c days ≤ clampDays days := by
  rw [totalDays_eq_filter]
  calc ((List.range (clampDays days)).filter (fun i => c.testBit i)).length
      ≤ (List.range (clampDays days)).length := List.length_filter_le _ _
    _ = clampDays days := List.length_range _

/-- A window of at least one day is clamped to at most the requested length. -/
lemma clampDays_le (days : Int) (h : 1 ≤ days) : (clampDays days : Int) ≤ days := by
  rw [clampDays]; split <;> omega

/-- C6: `totalInWindow` (Go `TotalDaysInPeriod`) counts the set bits among
indices `[0, days)` after clamping `days` to 64 whenever `days ≤ 0` or
`days > 64`; the result never exceeds the clamped window; the record
`0b1010101` gives 4 for a 7-day window and 2 for a 3-day window. -/
theorem TotalDaysInPeriod_spec (c : CheckinRecord) (days : Int) :
    TotalDaysInPeriod c days =
      ((List.range (clampDays days)).filter (fun i => c.testBit i)).length ∧
    ((days ≤ 0 ∨ days > 64) → clampDays days = 64) ∧
    (0 < days → days ≤ 64 → (clampDays days : Int) = days) ∧
    TotalDaysInPeriod c days ≤ clampDays days ∧
    TotalDaysInPeriod 85 7 = 4 ∧ TotalDaysInPeriod 85 3 = 2 := by
  refine ⟨totalDays_eq_filter c days, ?_, ?_, totalDays_le_clamp c days,
    by decide, by decide⟩
  · intro h
    rw [clampDays, if_pos h]
  · intro h1 h2
    rw [clampDays]
    split <;> omega

/-- Witness for C6 at windows of -1 and 7 days. -/
theorem TotalDaysInPeriod_spec_witness :
    clampDays (-1) = 64 ∧ (clampDays (7 : Int) : Int) = 7 :=
  ⟨(TotalDaysInPeriod_spec 0 (-1)).2.1 (Or.inl (by decide)),
   (TotalDaysInPeriod_spec 0 7).2.2.1 (by decide) (by decide)⟩

/-- The `ContinuousDays` loop counts at most `fuel` bits. -/
lemma contFrom_le (c : CheckinRecord) (i fuel : Nat) : contFrom c i fuel ≤ fuel := by
  induction fuel generalizing i with
  | zero => simp [contFrom]
  | succ f ih =>
    rw [contFrom]
    split
    · exact Nat.succ_le_succ (ih _)
    · exact Nat.zero_le _

/-- Every bit the `ContinuousDays` loop counted is set. -/
lemma contFrom_bits (c : CheckinRecord) (fuel i j : Nat)
    (hj : j < contFrom c i fuel) : c.testBit (i + j) = true := by
  induction fuel generalizing i j with
  | zero => simp [contFrom] at hj
  | succ f ih =>
    rw [contFrom] at hj
    by_cases h : (c &&& (1 <<< i) != 0) = true
    · rw [if_pos h] at hj
      rcases j with _ | j
      · rw [maskTest_eq_testBit] at h
        simpa using h
      · have hrec := ih (i + 1) j (by omega)
        have : i + 1 + j = i + (j + 1) := by omega
        rwa [this] at hrec
    · rw [if_neg h] at hj
      omega

/-- When the `ContinuousDays` loop stops before exhausting its fuel, the bit
it stopped at is clear. -/
lemma contFrom_stop (c : CheckinRecord) (fuel i : Nat)
    (h : contFrom c i fuel < fuel) : c.testBit (i + contFrom c i fuel) = false := by
  induction fuel generalizing i with
  | zero => omega
  | succ f ih =>
    rw [contFrom] at h ⊢
    by_cases hb : (c &&& (1 <<< i) != 0) = true
    · rw [if_pos hb] at h ⊢
      have hrec := ih (i + 1) (by omega)
      have : i + 1 + contFrom c (i + 1) f = i + (contFrom c (i + 1) f + 1) := by omega
      rwa [this] at hrec
    · rw [if_neg hb]
      rw [maskTest_eq_testBit] at hb
      simpa using hb

/-- C4: `currentStreak()` (Go `ContinuousDays`) returns a value in `[0,64]`
counting the consecutive set bits from index 0: every index below it is set
and, when it is below 64, the index right after the streak is clear; the
records `0b1011`, `0b1111111` and `0` give 2, 7 and 0. -/
theorem ContinuousDays_spec (c : CheckinRecord) :
    ContinuousDays c ≤ 64 ∧
    (∀ i, i < ContinuousDays c → c.testBit i = true) ∧
    (ContinuousDays c < 64 → c.testBit (ContinuousDays c) = false) ∧
    ContinuousDays 11 = 2 ∧ ContinuousDays 127 = 7 ∧ ContinuousDays 0 = 0 := by
  refine ⟨contFrom_le c 0 64, ?_, ?_, by decide, by decide, by decide⟩
  · intro i hi
    simpa using contFrom_bits c 64 0 i hi
  · intro h
    simpa using contFrom_stop c 64 0 h

/-- Witness for C4 at the record `0b1011`. -/
theorem ContinuousDays_spec_witness :
    Nat.testBit 11 0 = true ∧ Nat.testBit 11 (ContinuousDays 11) = false :=
  ⟨(ContinuousDays_spec 11).2.1 0 (by decide),
   (ContinuousDays_spec 11).2.2.1 (by decide)⟩

/-- C8: `render` (Go `StringWithDays`) emits exactly `clampDays days` glyphs
(`days` clamped to 64 exactly as in `TotalDaysInPeriod`), one per bit index
from `clampDays days - 1` down to 0 left to right, `'✓'` for a set bit and
`'✗'` for a clear bit; the no-argument `render` (Go `String`) is
`StringWithDays` at 7 days. -/
theorem StringWithDays_spec (c : CheckinRecord) (days : Int) :
    (StringWithDays c days).length = clampDays days ∧
    (StringWithDays c days).data =
      (List.range (clampDays days)).reverse.map
        (fun i => if c.testBit i then '✓' else '✗') ∧
    ((days ≤ 0 ∨ days > 64) → StringWithDays c days = StringWithDays c 64) ∧
    StringDefault c = StringWithDays c 7 := by
  refine ⟨?_, ?_, ?_, rfl⟩
  · simp [StringWithDays, String.length]
  · show ((List.range (clampDays days)).map
      (fun i => if c &&& (1 <<< i) != 0 then '✓' else '✗')).reverse = _
    rw [← List.map_reverse]
    simp [maskTest_eq_testBit]
  · intro h
    have h1 : clampDays days = 64 := by rw [clampDays, if_pos h]
    have h2 : clampDays (64 : Int) = 64 := by decide
    rw [StringWithDays, StringWithDays, h1, h2]

/-- Witness for C8 at record 0 and requested window 65. -/
theorem StringWithDays_spec_witness :
    StringWithDays 0 65 = StringWithDays 0 64 :=
  (StringWithDays_spec 0 65).2.2.1 (Or.inr (by decide))

/-- C2: `rate` (Go `CheckinRate`) is 0 for `days ≤ 0`; for `days ≥ 1` it is
the windowed total divided by the unclamped caller-supplied `days`; for
`days > 64` the numerator is the full-record total, so a fully-marked
record rates `64 / days`, strictly below 1; the result always lies in
`[0, 1]`. -/
theorem CheckinRate_spec (c : CheckinRecord) (days : Int) :
    (days ≤ 0 → CheckinRate c days = 0) ∧
    (1 ≤ days → CheckinRate c days = (TotalDaysInPeriod c days : ℚ) / (days : ℚ)) ∧
    (64 < days → CheckinRate c days = (TotalDaysInPeriod c 64 : ℚ) / (days : ℚ)) ∧
    (64 < days → CheckinRate (2 ^ 64 - 1) days = 64 / (days : ℚ) ∧
      CheckinRate (2 ^ 64 - 1) days < 1) ∧
    0 ≤ CheckinRate c days ∧ CheckinRate c days ≤ 1 := by
  have hdaysQ : ∀ d : Int, 1 ≤ d → (0 : ℚ) < (d : ℚ) := by
    intro d hd
    exact_mod_cast lt_of_lt_of_le Int.zero_lt_one hd
  have hclamp64 : ∀ d : Int, 64 < d → clampDays d = clampDays 64 := by
    intro d hd
    rw [clampDays, clampDays, if_pos (Or.inr hd)]
    decide
  have htot64 : ∀ d : Int, 64 < d →
      TotalDaysInPeriod c d = TotalDaysInPeriod c 64 := by
    intro d hd
    rw [TotalDaysInPeriod, TotalDaysInPeriod, hclamp64 d hd]
  have hfull : TotalDaysInPeriod (2 ^ 64 - 1) 64 = 64 := by decide
  have hle : ∀ d : Int, 1 ≤ d → (TotalDaysInPeriod c d : ℚ) ≤ (d : ℚ) := by
    intro d hd
    have h1 : (TotalDaysInPeriod c d : Int) ≤ (clampDays d : Int) :=
      Int.ofNat_le.mpr (totalDays_le_clamp c d)
    have h2 := clampDays_le d hd
    exact_mod_cast le_trans h1 h2
  refine ⟨fun h => by rw [CheckinRate, if_pos h], ?_, ?_, ?_, ?_, ?_⟩
  · intro h
    rw [CheckinRate, if_neg (by omega)]
  · intro h
    rw [CheckinRate, if_neg (by omega), htot64 days h]
  · intro h
    constructor
    · rw [CheckinRate, if_neg (by omega)]
      have : TotalDaysInPeriod (2 ^ 64 - 1) days = TotalDaysInPeriod (2 ^ 64 - 1) 64 := by
        rw [TotalDaysInPeriod, TotalDaysInPeriod, hclamp64 days h]
      rw [this, hfull]
      norm_num
    · rw [CheckinRate, if_neg (by omega)]
      rw [div_lt_one (hdaysQ days (by omega))]
      have : TotalDaysInPeriod (2 ^ 64 - 1) days = TotalDaysInPeriod (2 ^ 64 - 1) 64 := by
        rw [TotalDaysInPeriod, TotalDaysInPeriod, hclamp64 days h]
      rw [this, hfull]
      exact_mod_cast h
  · by_cases hd : days ≤ 0
    · rw [CheckinRate, if_pos hd]
    · rw [CheckinRate, if_neg hd]
      exact div_nonneg (Nat.cast_nonneg _) (le_of_lt (hdaysQ days (by omega)))
  · by_cases hd : days ≤ 0
    · rw [CheckinRate, if_pos hd]
      exact zero_le_one
    · rw [CheckinRate, if_neg hd]
      rw [div_le_one (hdaysQ days (by omega))]
      exact hle days (by omega)

/-- Witness for C2 at the empty record with a zero window and the full
record with a 100-day window. -/
theorem CheckinRate_spec_witness :
    CheckinRate 0 0 = 0 ∧ CheckinRate (2 ^ 64 - 1) 100 = 64 / (100 : ℚ) :=
  ⟨(CheckinRate_spec 0 0).1 (by decide),
   ((CheckinRate_spec 0 100).2.2.2.1 (by decide)).1⟩

/-- C1 counterexample: the all-ones record has bit 63 set, yet `Binary`
does not print the raw 64-one-bits pattern — Go's `%b` on the negative
`int64` value -1 prints a sign and the magnitude, giving `"0b-1"`. -/
theorem Binary_counterexample :
    Nat.testBit (2 ^ 64 - 1) 63 = true ∧
    Binary (2 ^ 64 - 1) ≠ "0b" ++ String.mk (List.replicate 64 '1') := by decide

/-- C1 (amended): for a record with bit 63 clear, `Binary` returns the
radix-2 prefix followed by the raw bit pattern most-significant bit first
with leading zero bits not shown; for a record with bit 63 set it returns
the prefix, a minus sign, and the binary magnitude `2^64 - c` of the
signed value instead of the raw pattern. -/
theorem Binary_amended (c : Nat) (hc : c < 2 ^ 64) :
    (c.testBit 63 = false → Binary c = "0b" ++ fmtBinNat c) ∧
    (c.testBit 63 = true → Binary c = "0b-" ++ fmtBinNat (2 ^ 64 - c)) := by
  have e63 : (2 : Nat) ^ 63 = 9223372036854775808 := by norm_num
  have e64 : (2 : Nat) ^ 64 = 18446744073709551616 := by norm_num
  have hdiv : c.testBit 63 = decide (c / 2 ^ 63 % 2 = 1) := Nat.testBit_to_div_mod
  rw [e64] at hc
  rw [e63] at hdiv
  constructor
  · intro h
    rw [hdiv] at h
    simp only [decide_eq_false_iff_not] at h
    have hlt : c < 2 ^ 63 := by
      rw [e63]
      omega
    have hTo : ToInt64 c = (c : Int) := by rw [ToInt64, if_pos hlt]
    rw [Binary, hTo, if_pos (Int.natCast_nonneg c)]
    congr 1
  · intro h
    rw [hdiv] at h
    simp only [decide_eq_true_eq] at h
    have hge : ¬ (c < 2 ^ 63) := by
      rw [e63]
      omega
    have hTo : ToInt64 c = (c : Int) - 2 ^ 64 := by rw [ToInt64, if_neg hge]
    have hneg : ¬ (ToInt64 c ≥ 0) := by
      rw [hTo]
      have h1 : (2 : Int) ^ 64 = 18446744073709551616 := by norm_num
      rw [h1]
      omega
    rw [Binary, if_neg hneg, hTo]
    have hmag : (-((c : Int) - 2 ^ 64)).toNat = 2 ^ 64 - c := by
      have h1 : (2 : Int) ^ 64 = 18446744073709551616 := by norm_num
      rw [h1, e64]
      omega
    rw [hmag]

/-- Witness for C1 (amended) at the records 5 and `2^63`. -/
theorem Binary_amended_witness :
    Binary 5 = "0b" ++ fmtBinNat 5 ∧
    Binary (2 ^ 63) = "0b-" ++ fmtBinNat (2 ^ 64 - 2 ^ 63) :=
  ⟨(Binary_amended 5 (by decide)).1 (by decide),
   (Binary_amended (2 ^ 63) (by decide)).2 (by decide)⟩

/-- The run of set bits ending just below index `n` (the `currentCount`
variable of `MaxContinuousDays` after processing indices `0 .. n-1`). -/
def runEnd (c : CheckinRecord) : Nat → Nat
  | 0 => 0
  | n + 1 => if c.testBit n then runEnd c n + 1 else 0

/-- The `maxCount` variable of `MaxContinuousDays` after processing
indices `0 .. n-1`. -/
def maxRE (c : CheckinRecord) : Nat → Nat
  | 0 => 0
  | n + 1 =>
      if c.testBit n then
        if runEnd c n + 1 > maxRE c n then runEnd c n + 1 else maxRE c n
      else maxRE c n

/-- `maxRE` takes the running maximum of the ending runs. -/
lemma maxRE_succ (c : CheckinRecord) (n : Nat) :
    maxRE c (n + 1) = max (maxRE c n) (runEnd c (n + 1)) := by
  rw [maxRE, runEnd]
  by_cases h : c.testBit n = true
  · rw [if_pos h, if_pos h]
    split <;> omega
  · rw [if_neg h, if_neg h]
    omega

/-- The `MaxContinuousDays` fold computes `(maxRE, runEnd)`. -/
lemma foldl_maxCont (c : CheckinRecord) (n : Nat) :
    (List.range n).foldl (maxContStep c) (0, 0) = (maxRE c n, runEnd c n) := by
  induction n with
  | zero => rfl
  | succ m ih =>
    rw [List.range_succ, List.foldl_append, ih, List.foldl_cons, List.foldl_nil]
    simp only [maxContStep, maskTest_eq_testBit]
    by_cases h : c.testBit m = true
    · rw [if_pos h, maxRE, runEnd, if_pos h, if_pos h]
    · rw [if_neg h, maxRE, runEnd, if_neg h, if_neg h]

/-- A run ending at index `n - 1` fits below `n`. -/
lemma runEnd_le (c : CheckinRecord) (n : Nat) : runEnd c n ≤ n := by
  induction n with
  | zero => rw [runEnd]
  | succ m ih =>
    rw [runEnd]
    split <;> omega

/-- The bits of the run counted by `runEnd` are all set. -/
lemma runEnd_bits (c : CheckinRecord) (n : Nat) :
    ∀ i, i < runEnd c n → c.testBit (n - runEnd c n + i) = true := by
  induction n with
  | zero =>
    intro i hi
    rw [runEnd] at hi
    omega
  | succ m ih =>
    intro i hi
    rw [runEnd] at hi ⊢
    by_cases h : c.testBit m = true
    · rw [if_pos h] at hi ⊢
      have hR := runEnd_le c m
      rcases Nat.lt_succ_iff_lt_or_eq.mp hi with hlt | heq
      · have e : m + 1 - (runEnd c m + 1) + i = m - runEnd c m + i := by omega
        rw [e]
        exact ih i hlt
      · have e : m + 1 - (runEnd c m + 1) + i = m := by omega
        rw [e]
        exact h
    · rw [if_neg h] at hi
      omega

/-- Every ending run seen so far is below the running maximum. -/
lemma maxRE_ge (c : CheckinRecord) (n : Nat) :
    ∀ j, j ≤ n → runEnd c j ≤ maxRE c n := by
  induction n with
  | zero =>
    intro j hj
    have : j = 0 := by omega
    subst this
    rw [runEnd, maxRE]
  | succ m ih =>
    intro j hj
    rw [maxRE_succ]
    rcases Nat.le_succ_iff.mp hj with h | h
    · exact le_trans (ih j h) (le_max_left _ _)
    · subst h
      exact le_max_right _ _

/-- The running maximum is attained by the run ending at some index. -/
lemma maxRE_achieved (c : CheckinRecord) (n : Nat) :
    ∃ j, j ≤ n ∧ maxRE c n = runEnd c j := by
  induction n with
  | zero => exact ⟨0, Nat.le_refl 0, rfl⟩
  | succ m ih =>
    obtain ⟨j, hj, he⟩ := ih
    rw [maxRE_succ]
    rcases Nat.le_total (maxRE c m) (runEnd c (m + 1)) with h | h
    · exact ⟨m + 1, Nat.le_refl _, by rw [Nat.max_eq_right h]⟩
    · exact ⟨j, by omega, by rw [Nat.max_eq_left h, he]⟩

/-- A window of `len` set bits starting at `s` forces the run ending at
`s + len` to reach at least `len`. -/
lemma runEnd_window (c : CheckinRecord) (s len : Nat)
    (hbits : ∀ i, i < len → c.testBit (s + i) = true) :
    len ≤ runEnd c (s + len) := by
  induction len with
  | zero => omega
  | succ k ih =>
    have hk : k ≤ runEnd c (s + k) := ih (fun i hi => hbits i (by omega))
    have hbit : c.testBit (s + k) = true := hbits k (by omega)
    have e : s + (k + 1) = (s + k) + 1 := by omega
    rw [e, runEnd, if_pos hbit]
    omega

/-- C5: `maxStreak()` (Go `MaxContinuousDays`) is the length of the longest
run of consecutive set bits among the 64 indices: some window of that
length inside `[0, 64)` is fully set, and no fully-set window inside
`[0, 64)` is longer; the records `0b1110011`, `0b11110110` and `0` give
3, 4 and 0. -/
theorem MaxContinuousDays_spec (c : CheckinRecord) :
    (∃ s, s + MaxContinuousDays c ≤ 64 ∧
      ∀ i, i < MaxContinuousDays c → c.testBit (s + i) = true) ∧
    (∀ s len, s + len ≤ 64 → (∀ i, i < len → c.testBit (s + i) = true) →
      len ≤ MaxContinuousDays c) ∧
    MaxContinuousDays 115 = 3 ∧ MaxContinuousDays 246 = 4 ∧
    MaxContinuousDays 0 = 0 := by
  have hM : ∀ cc : CheckinRecord, cc ≠ 0 → MaxContinuousDays cc = maxRE cc 64 := by
    intro cc hcc
    rw [MaxContinuousDays, if_neg hcc, foldl_maxCont]
  refine ⟨?_, ?_, by decide, by decide, by decide⟩
  · by_cases hc : c = 0
    · subst hc
      refine ⟨0, by decide, ?_⟩
      intro i hi
      have h0 : MaxContinuousDays 0 = 0 := by decide
      omega
    · rw [hM c hc]
      obtain ⟨j, hj, he⟩ := maxRE_achieved c 64
      refine ⟨j - runEnd c j, ?_, ?_⟩
      · have h1 := runEnd_le c j
        omega
      · rw [he]
        exact runEnd_bits c j
  · intro s len hslen hbits
    by_cases hc : c = 0
    · subst hc
      rcases Nat.eq_zero_or_pos len with h0 | h0
      · omega
      · have hbit := hbits 0 h0
        rw [Nat.zero_testBit] at hbit
        exact absurd hbit (by simp)
    · rw [hM c hc]
      have h1 := runEnd_window c s len hbits
      have h2 := maxRE_ge c 64 (s + len) hslen
      omega

/-- Witness for C5 at the record `0b1110011`. -/
theorem MaxContinuousDays_spec_witness :
    3 ≤ MaxContinuousDays 115 :=
  (MaxContinuousDays_spec 115).2.1 4 3 (by decide) (by decide)
